import Mathlib

/-!
Verification of the multipoint-opening and Fiat-Shamir transcript core of a
halo2-style proof system.  The Rust source under `src/transcript.rs` and
`src/poly/multiopen/prover.rs` is shallowly embedded: field elements become
elements of a commutative ring or of `ZMod p`, byte buffers become `List Nat`,
the BLAKE2b hash state becomes the list of absorbed bytes together with an
abstract finalization function, Rust `BTreeMap`-with-`or_insert` index maps
become association lists, and Rust references compared with `std::ptr::eq`
become explicit addresses.

The file is organized as definitions first, theorems second.
-/

namespace Halo2

/-! # Definitions -/

/-! ## Endoscaling challenge map (`Challenge128::get_scalar`, src/transcript.rs 282-299) -/

section Endoscaling

variable {R : Type} [CommRing R]

/-- One iteration of the loop body of `Challenge128::get_scalar`
(src/transcript.rs 285-296): `should_negate` is bit `2*i+1` of the 128-bit
challenge, `should_endo` is bit `2*i`; `q` is `±1`, multiplied by `ZETA` when
`should_endo` holds, and `acc` becomes `acc + q + acc`. -/
def getScalarStep (zeta : R) (c : Nat) (acc : R) (i : Nat) : R :=
  let shouldNegate : Bool := c.testBit (2 * i + 1)
  let shouldEndo : Bool := c.testBit (2 * i)
  let q : R := if shouldNegate then -1 else 1
  let q : R := if shouldEndo then q * zeta else q
  acc + q + acc

/-- `Challenge128::get_scalar` (src/transcript.rs 282-299): starting from
`(ZETA + 1).double()`, iterate the loop body for `i = 63` down to `0`. -/
def getScalar (zeta : R) (c : Nat) : R :=
  (List.range 64).reverse.foldl (getScalarStep zeta c) ((zeta + 1) + (zeta + 1))

/-- The recurrence as the specification words it: `acc` starts at
`2 * (ZETA + 1)`; for each of the 64 bit-pairs of `c` from most- to
least-significant, `q = (-1 if the high bit of the pair is set else 1) *
(ZETA if the low bit of the pair is set else 1)` and `acc` becomes
`acc + q + acc`. -/
def endoRecurrence (zeta : R) (c : Nat) : R :=
  (List.range 64).reverse.foldl
    (fun acc j =>
      let q : R := (if c.testBit (2 * j + 1) then -1 else 1) *
        (if c.testBit (2 * j) then zeta else 1)
      acc + q + acc)
    (2 * (zeta + 1))

end Endoscaling

/-! ## Little-endian byte encodings -/

/-- Little-endian base-256 encoding of `v` in exactly `w` bytes. -/
def natToBytesLE : Nat → Nat → List Nat
  | 0, _ => []
  | w + 1, v => v % 256 :: natToBytesLE w (v / 256)

/-- Value of a little-endian base-256 byte list. -/
def bytesToNatLE : List Nat → Nat
  | [] => 0
  | b :: bs => b + 256 * bytesToNatLE bs

/-! ## Field element encodings

The trait `FieldExt` (src/arithmetic/fields.rs 10-68) declares `to_bytes`,
`from_bytes` and `from_bytes_wide`, but the concrete field implementations of
this repository are not among the provided sources, so they are modelled from
the specification.  The scalar and base fields are modelled as `ZMod p`. -/

/-- Modelled from the spec: `FieldExt::to_bytes` (declared in
src/arithmetic/fields.rs 60; implementation not among the sources): the
normalized (canonical) little-endian 32-byte representation of a field
element. -/
def fieldToBytes (p : Nat) [NeZero p] (x : ZMod p) : List Nat :=
  natToBytesLE 32 x.val

/-- Modelled from the spec: `FieldExt::from_bytes` (declared in
src/arithmetic/fields.rs 64; implementation not among the sources): decode a
32-byte little-endian representation, failing unless it is canonical (the
encoded integer is below the modulus). -/
def fieldFromBytes (p : Nat) (b : List Nat) : Option (ZMod p) :=
  if b.length = 32 ∧ bytesToNatLE b < p then some ((bytesToNatLE b : Nat) : ZMod p)
  else none

/-- Modelled from the spec: `FieldExt::from_bytes_wide` (declared in
src/arithmetic/fields.rs 68; implementation not among the sources): reduce a
512-bit little-endian integer modulo the field order. -/
def fieldFromBytesWide (p : Nat) (b : List Nat) : ZMod p :=
  ((bytesToNatLE b : Nat) : ZMod p)

/-! ## `Challenge255` (src/transcript.rs 302-326) -/

/-- `Challenge255` (src/transcript.rs 304): a 255-bit challenge stored as the
32-byte canonical encoding of a scalar. -/
structure Challenge255 (p : Nat) where
  bytes : List Nat
  deriving DecidableEq

/-- `Challenge255::new` (src/transcript.rs 317-322): wide-reduce the 64-byte
challenge input and store the canonical 32-byte encoding of the result. -/
def Challenge255.new (p : Nat) [NeZero p] (challengeInput : List Nat) : Challenge255 p :=
  ⟨fieldToBytes p (fieldFromBytesWide p challengeInput)⟩

/-- `Challenge255::get_scalar` (src/transcript.rs 323-325): canonical decoding
of the stored bytes; the source unwraps the `CtOption`, so the failure case is
modelled as `none`. -/
def Challenge255.getScalar (p : Nat) (c : Challenge255 p) : Option (ZMod p) :=
  fieldFromBytes p c.bytes

/-! ## Curve points and the BLAKE2b transcripts (src/transcript.rs)

A `CurveAffine` point is modelled by its `coordinates`: `none` is the identity
(point at infinity), exactly the case in which `coordinates()` returns an empty
`Option` in the source.  The BLAKE2b hash state is modelled as the list of all
bytes absorbed so far (`update` appends), together with an abstract
finalization function `H` standing for the BLAKE2b compression; the source
configures `hash_length(64)`, which theorems take as the hypothesis that `H`
always returns 64 bytes. -/

/-- An affine curve point, identified by its coordinates; `none` models the
identity point, for which `CurveAffine::coordinates` returns no value. -/
structure AffinePoint (F : Type) where
  coordinates : Option (F × F)
  deriving DecidableEq

/-- `Blake2bRead` (src/transcript.rs 57-62): hash state plus the proof byte
stream still to be read. -/
structure Blake2bRead (F : Type) where
  state : List Nat
  reader : List Nat
  deriving DecidableEq

/-- `Blake2bWrite` (src/transcript.rs 140-145): hash state plus the proof
bytes written so far. -/
structure Blake2bWrite (F : Type) where
  state : List Nat
  writer : List Nat
  deriving DecidableEq

section Transcripts

variable {F : Type}

/-- `Blake2bRead::squeeze_challenge` (src/transcript.rs 111-116): finalize the
current hash state into a 64-byte digest (`H state`), re-seed the state by
absorbing that digest, and return the digest (which the source wraps with
`Challenge255::new`). -/
def Blake2bRead.squeezeChallenge (H : List Nat → List Nat) (t : Blake2bRead F) :
    List Nat × Blake2bRead F :=
  let result := H t.state
  (result, { t with state := t.state ++ result })

/-- `Blake2bWrite::squeeze_challenge` (src/transcript.rs 186-191): identical
to the reading side. -/
def Blake2bWrite.squeezeChallenge (H : List Nat → List Nat) (t : Blake2bWrite F) :
    List Nat × Blake2bWrite F :=
  let result := H t.state
  (result, { t with state := t.state ++ result })

/-- `Blake2bRead::common_point` (src/transcript.rs 118-129): fail on the
identity point; otherwise absorb the canonical encodings of the `x` and then
the `y` coordinate into the hash state. -/
def Blake2bRead.commonPoint (enc : F → List Nat) (t : Blake2bRead F)
    (point : AffinePoint F) : Option (Blake2bRead F) :=
  match point.coordinates with
  | none => none
  | some (x, y) => some { t with state := t.state ++ enc x ++ enc y }

/-- `Blake2bWrite::common_point` (src/transcript.rs 193-204): identical to the
reading side. -/
def Blake2bWrite.commonPoint (enc : F → List Nat) (t : Blake2bWrite F)
    (point : AffinePoint F) : Option (Blake2bWrite F) :=
  match point.coordinates with
  | none => none
  | some (x, y) => some { t with state := t.state ++ enc x ++ enc y }

/-- `Blake2bRead::common_scalar` (src/transcript.rs 131-135): absorb the
canonical encoding of a scalar. -/
def Blake2bRead.commonScalar (enc : F → List Nat) (t : Blake2bRead F) (s : F) :
    Blake2bRead F :=
  { t with state := t.state ++ enc s }

/-- `Blake2bWrite::common_scalar` (src/transcript.rs 206-210). -/
def Blake2bWrite.commonScalar (enc : F → List Nat) (t : Blake2bWrite F) (s : F) :
    Blake2bWrite F :=
  { t with state := t.state ++ enc s }

/-- One transcript interaction: absorb a point, absorb a scalar, or squeeze a
challenge. -/
inductive TOp (F : Type) where
  | point (pt : AffinePoint F)
  | scalar (s : F)
  | squeeze

/-- Run a sequence of transcript operations on a writing transcript,
collecting the squeezed challenge digests in order; absorbing the identity
point aborts (as `common_point` fails there). -/
def Blake2bWrite.runOps (enc : F → List Nat) (H : List Nat → List Nat) :
    Blake2bWrite F → List (TOp F) → Option (Blake2bWrite F × List (List Nat))
  | t, [] => some (t, [])
  | t, TOp.point pt :: ops =>
      match t.commonPoint enc pt with
      | none => none
      | some t2 => t2.runOps enc H ops
  | t, TOp.scalar s :: ops => (t.commonScalar enc s).runOps enc H ops
  | t, TOp.squeeze :: ops =>
      let r := t.squeezeChallenge H
      match r.2.runOps enc H ops with
      | none => none
      | some (tf, cs) => some (tf, r.1 :: cs)

end Transcripts

/-! ## Point wire encoding -/

/-- Modelled from the spec: `CurveAffine::to_bytes` and the point wire
encoding (the `CurveAffine` implementation is not among the provided sources).
The specification defines the wire encoding of a point as two fixed-width
canonical field-element encodings, `x` then `y`, each little-endian, and
states that the identity point has no valid encoding — the placeholder bytes
for the identity are never produced on the write path, which rejects the
identity before encoding. -/
def pointToBytes (p : Nat) [NeZero p] (point : AffinePoint (ZMod p)) : List Nat :=
  match point.coordinates with
  | some (x, y) => fieldToBytes p x ++ fieldToBytes p y
  | none => List.replicate 64 0

/-- Modelled from the spec: `CurveAffine::from_bytes` (implementation not
among the provided sources): decode two canonical 32-byte little-endian field
elements, `x` then `y`, failing on non-canonical bytes. -/
def pointFromBytes (p : Nat) (b : List Nat) : Option (AffinePoint (ZMod p)) :=
  if b.length = 64 then
    match fieldFromBytes p (b.take 32), fieldFromBytes p (b.drop 32) with
    | some x, some y => some ⟨some (x, y)⟩
    | _, _ => none
  else none

/-- `Blake2bWrite::write_point` (src/transcript.rs 171-175): absorb the point
via `common_point`, then append its encoding to the proof stream. -/
def Blake2bWrite.writePoint (p : Nat) [NeZero p] (t : Blake2bWrite (ZMod p))
    (point : AffinePoint (ZMod p)) : Option (Blake2bWrite (ZMod p)) :=
  match t.commonPoint (fieldToBytes p) point with
  | none => none
  | some t2 => some { t2 with writer := t2.writer ++ pointToBytes p point }

/-- `Blake2bRead::read_point` (src/transcript.rs 82-91): read one point
encoding from the proof stream (failing if the stream is too short or the
bytes are invalid), then absorb the point via `common_point`. -/
def Blake2bRead.readPoint (p : Nat) [NeZero p] (t : Blake2bRead (ZMod p)) :
    Option (AffinePoint (ZMod p) × Blake2bRead (ZMod p)) :=
  if t.reader.length < 64 then none
  else
    match pointFromBytes p (t.reader.take 64) with
    | none => none
    | some point =>
        match Blake2bRead.commonPoint (fieldToBytes p) ⟨t.state, t.reader.drop 64⟩ point with
        | none => none
        | some t2 => some (point, t2)

/-! ## Association lists and first-seen index maps

`BTreeMap<K, usize>` used with `entry(k).or_insert(map.len())` assigns each
distinct key the next index in first-seen order.  Only lookup and
insert-if-absent are used by the embedded code, so the map is modelled as an
association list in insertion order; `alookup` returns the first matching
binding. -/

/-- First-match lookup in an association list. -/
def alookup {κ ν : Type} [DecidableEq κ] : List (κ × ν) → κ → Option ν
  | [], _ => none
  | (k, v) :: rest, k2 => if k = k2 then some v else alookup rest k2

/-- `map.entry(k).or_insert(map.len())`: keep the existing binding, or append
a binding of `k` to the current size. -/
def insertIndexed {κ : Type} [DecidableEq κ] (m : List (κ × Nat)) (k : κ) :
    List (κ × Nat) :=
  match alookup m k with
  | some _ => m
  | none => m ++ [(k, m.length)]

/-- The index map obtained by inserting every key of `ks` in order. -/
def buildIndexMap {κ : Type} [DecidableEq κ] (ks : List κ) : List (κ × Nat) :=
  ks.foldl insertIndexed []

/-- Position of the first occurrence of an element in a list. -/
def idxOf? {α : Type} [DecidableEq α] : List α → α → Option Nat
  | [], _ => none
  | a :: as, b => if a = b then some 0 else (idxOf? as b).map (· + 1)

/-- The distinct elements of a list, in first-seen order. -/
def firstSeen {α : Type} [DecidableEq α] (l : List α) : List α :=
  l.foldl (fun acc a => if a ∈ acc then acc else acc ++ [a]) []

/-- The elements of a list paired with their positions, starting at `n`. -/
def indexedFrom {α : Type} (n : Nat) : List α → List (α × Nat)
  | [] => []
  | a :: as => (a, n) :: indexedFrom (n + 1) as

/-! ## Query aggregation (`construct_intermediate_sets`, src/poly/multiopen/prover.rs 176-298)

The source distinguishes polynomials with `std::ptr::eq` on `&Polynomial`
references (lines 200, 259, 267, 281).  A reference is modelled as a `PolyRef`
carrying the address of the referenced object next to its coefficients, and
`std::ptr::eq` becomes equality of addresses. -/

/-- A Rust reference `&'a Polynomial<C::Scalar, Coeff>`: the address of the
referent plus its coefficients. `std::ptr::eq` compares only `addr`. -/
structure PolyRef (F : Type) where
  addr : Nat
  coeffs : List F
  deriving DecidableEq

/-- `ProverQuery` (declared outside the provided sources; its fields `poly`,
`blind`, `point`, `eval` are fixed by their uses in
src/poly/multiopen/prover.rs 195-211, 254-283). -/
structure ProverQuery (F : Type) where
  poly : PolyRef F
  blind : F
  point : F
  eval : F
  deriving DecidableEq

/-- `CommitmentData` (src/poly/multiopen/prover.rs 17-23). -/
structure CommitmentData (F : Type) where
  set_index : Nat
  blind : F
  point_indices : List Nat
  evals : List F
  deriving DecidableEq

section Aggregation

variable {F : Type} [DecidableEq F]

/-- One iteration of the first loop of `construct_intermediate_sets`
(src/poly/multiopen/prover.rs 193-216): insert the query's point into the
point-index map, then either push the point index onto the `CommitmentData`
of every `std::ptr::eq`-matching entry of `poly_map`, or append a fresh
entry. -/
def processQuery (st : List (F × Nat) × List (PolyRef F × CommitmentData F))
    (q : ProverQuery F) : List (F × Nat) × List (PolyRef F × CommitmentData F) :=
  let m := insertIndexed st.1 q.point
  let pointIdx := (alookup m q.point).getD 0
  let pm := st.2
  if pm.any (fun e => e.1.addr == q.poly.addr) then
    (m, pm.map fun e =>
      if e.1.addr = q.poly.addr then
        (e.1, { e.2 with point_indices := e.2.point_indices ++ [pointIdx] })
      else e)
  else
    (m, pm ++ [(q.poly, ⟨0, q.blind, [pointIdx], []⟩)])

/-- The first loop of `construct_intermediate_sets`
(src/poly/multiopen/prover.rs 187-216), producing `point_index_map` and the
initial `poly_map`. -/
def buildMaps (queries : List (ProverQuery F)) :
    List (F × Nat) × List (PolyRef F × CommitmentData F) :=
  queries.foldl processQuery ([], [])

/-- `point_index_map` (src/poly/multiopen/prover.rs 190-195). -/
def pointIndexMap (queries : List (ProverQuery F)) : List (F × Nat) :=
  (buildMaps queries).1

/-- `poly_map` after the first loop (src/poly/multiopen/prover.rs 187-216). -/
def polyMap (queries : List (ProverQuery F)) :
    List (PolyRef F × CommitmentData F) :=
  (buildMaps queries).2

/-- The `BTreeSet<usize>` of point indices of one polynomial
(src/poly/multiopen/prover.rs 230-234). -/
def pointIndexSetOf (cd : CommitmentData F) : Finset Nat :=
  cd.point_indices.toFinset

/-- `poly_set_map` (src/poly/multiopen/prover.rs 226-237). -/
def polySetMap (queries : List (ProverQuery F)) : List (PolyRef F × Finset Nat) :=
  (polyMap queries).map fun e => (e.1, pointIndexSetOf e.2)

/-- `point_idx_sets` (src/poly/multiopen/prover.rs 225-243): each distinct
point-index set, mapped to a set index in first-seen order over `poly_map`. -/
def pointIdxSets (queries : List (ProverQuery F)) : List (Finset Nat × Nat) :=
  (polyMap queries).foldl (fun s e => insertIndexed s (pointIndexSetOf e.2)) []

/-- The `point_index_set` lookup of the second loop
(src/poly/multiopen/prover.rs 257-262): start from the empty set and overwrite
it with the set of every `std::ptr::eq`-matching entry of `poly_set_map`. -/
def lastMatchSet (queries : List (ProverQuery F)) (a : Nat) : Finset Nat :=
  (polySetMap queries).foldl (fun acc e => if e.1.addr = a then e.2 else acc) ∅

/-- One iteration of the second loop of `construct_intermediate_sets`
(src/poly/multiopen/prover.rs 252-286): look up the query's point index and
its polynomial's point-index set, resolve the set index, and for every
`std::ptr::eq`-matching entry of `poly_map` store the set index and the
evaluation (placed at the point's offset in the sorted point-index set).  The
source does the `set_index` and `evals` stores in two separate scans of
`poly_map` with the same match condition; they are combined into one scan. -/
def populateStep [Zero F] (queries : List (ProverQuery F))
    (pm : List (PolyRef F × CommitmentData F)) (q : ProverQuery F) :
    List (PolyRef F × CommitmentData F) :=
  let pointIndex := (alookup (pointIndexMap queries) q.point).getD 0
  let pis := lastMatchSet queries q.poly.addr
  let setIndex := (alookup (pointIdxSets queries) pis).getD 0
  let sorted := pis.sort (· ≤ ·)
  let pos := (idxOf? sorted pointIndex).getD 0
  pm.map fun e =>
    if e.1.addr = q.poly.addr then
      (e.1, { e.2 with set_index := setIndex, evals := e.2.evals.set pos q.eval })
    else e

/-- The evals initialization and second loop of `construct_intermediate_sets`
(src/poly/multiopen/prover.rs 246-286): give each entry a zero evals vector of
the length of its `point_indices`, then run the second loop over all
queries. -/
def populate [Zero F] (queries : List (ProverQuery F)) :
    List (PolyRef F × CommitmentData F) :=
  queries.foldl (populateStep queries)
    ((polyMap queries).map fun e =>
      (e.1, { e.2 with evals := List.replicate e.2.point_indices.length 0 }))

end Aggregation

/-- The three queries of the concrete scenario of the specification: `P`
(address 0) queried at `z1 = 10` and then at `z2 = 20`, and `Q` (address 1)
queried only at `z1 = 10`. -/
def scenarioQueries : List (ProverQuery ℕ) :=
  [⟨⟨0, [1]⟩, 0, 10, 0⟩, ⟨⟨0, [1]⟩, 0, 20, 0⟩, ⟨⟨1, [2]⟩, 0, 10, 0⟩]

/-- A grouping-invariance scenario: `P` (address 0) queried at `z1 = 10` then
`z2 = 20`, `R` (address 2) queried at `z2 = 20` then `z1 = 10` (same point
set, opposite insertion order), and `Q` (address 1) queried only at
`z1 = 10`. -/
def scenarioQueriesPerm : List (ProverQuery ℕ) :=
  [⟨⟨0, [1]⟩, 0, 10, 0⟩, ⟨⟨0, [1]⟩, 0, 20, 0⟩,
   ⟨⟨2, [3]⟩, 0, 20, 0⟩, ⟨⟨2, [3]⟩, 0, 10, 0⟩,
   ⟨⟨1, [2]⟩, 0, 10, 0⟩]

/-- Proof infrastructure (not a source embedding): the expected `poly_map`
entry for one address, given the first matching existing entry, the first
matching query, and the point indices of all matching queries. -/
def expectedEntry {F : Type} (pmFind : Option (PolyRef F × CommitmentData F))
    (restFind : Option (ProverQuery F)) (idxs : List Nat) :
    Option (PolyRef F × CommitmentData F) :=
  match pmFind with
  | some e => some (e.1, { e.2 with point_indices := e.2.point_indices ++ idxs })
  | none =>
    match restFind with
    | some q0 => some (q0.poly, ⟨0, q0.blind, idxs, []⟩)
    | none => none

/-! ## The speculative finalization loop (`Proof::create`, src/poly/multiopen/prover.rs 115-166)

The loop body clones the two transcripts from the originals, absorbs the
current `f_commitment`, derives `x_6` and `x_7`, folds, and attempts the
external single-point opening (`commitment::Proof::create`, not among the
provided sources).  The whole body up to the attempt is a pure function of the
original transcripts and the current blind and commitment, abstracted here as
`attempt`; `addH` abstracts adding the blinding generator `params.h`. -/

/-- The `loop` of `Proof::create` (src/poly/multiopen/prover.rs 115-166), with
fuel: on a successful attempt, break with the opening and the blind and
commitment that produced it; on failure, increment the blind by one, shift the
commitment by the blinding generator, and retry with the same original
transcripts. -/
def createLoop {Fq Pt Op T T' : Type} [CommRing Fq]
    (attempt : T → T' → Fq → Pt → Option Op) (addH : Pt → Pt)
    (t : T) (t' : T') : Nat → Fq → Pt → Option (Op × Fq × Pt)
  | 0, _, _ => none
  | fuel + 1, fBlind, fCommitment =>
      match attempt t t' fBlind fCommitment with
      | some opening => some (opening, fBlind, fCommitment)
      | none => createLoop attempt addH t t' fuel (fBlind + 1) (addH fCommitment)

/-! ## The `x_7` Horner fold (src/poly/multiopen/prover.rs 138-161)

Polynomials are coefficient lists; `parallelize` with `*f *= x7; *f += a`
is the pointwise multiply-accumulate `polyMulAdd`.  The source iterates over
`points.iter().enumerate()` and indexes `q_blinds[point_index]` and
`q_polys[point_index]`, modelled as a fold over `List.range numPoints` with
list indexing. -/

/-- The body of the inner `parallelize` (src/poly/multiopen/prover.rs
147-155): pointwise `f := f * x7 + a` over the coefficients. -/
def polyMulAdd {R : Type} [CommRing R] (x : R) (f a : List R) : List R :=
  List.zipWith (fun fc ac => fc * x + ac) f a

/-- The blind fold of the loop (src/poly/multiopen/prover.rs 143-146):
`f_blind_dup *= x_7; f_blind_dup += q_blinds[point_index]` over all point
indices in order. -/
def finalFoldBlind {R : Type} [CommRing R] (x7 : R) (numPoints : Nat)
    (qBlinds : List R) (fBlind : R) : R :=
  (List.range numPoints).foldl (fun acc i => acc * x7 + qBlinds.getD i 0) fBlind

/-- The polynomial fold of the loop (src/poly/multiopen/prover.rs 143-156):
`f_poly := f_poly * x_7 + q_polys[point_index]` pointwise, over all point
indices in order. -/
def finalFoldPoly {R : Type} [CommRing R] (x7 : R) (numPoints : Nat)
    (qPolys : List (List R)) (fPoly : List R) : List R :=
  (List.range numPoints).foldl (fun acc i => polyMulAdd x7 acc (qPolys.getD i []))
    fPoly

/-! # Theorems -/

/-! ## Byte encodings -/

theorem length_natToBytesLE (w v : Nat) : (natToBytesLE w v).length = w := by
  induction w generalizing v with
  | zero => rfl
  | succ w ih => simp [natToBytesLE, ih]

theorem bytesToNatLE_natToBytesLE (w v : Nat) :
    bytesToNatLE (natToBytesLE w v) = v % 256 ^ w := by
  induction w generalizing v with
  | zero => simp [natToBytesLE, bytesToNatLE, Nat.mod_one]
  | succ w ih =>
      calc bytesToNatLE (natToBytesLE (w + 1) v)
          = v % 256 + 256 * (v / 256 % 256 ^ w) := by
            simp [natToBytesLE, bytesToNatLE, ih]
        _ = v % 256 ^ (w + 1) := by
            rw [pow_succ, mul_comm (256 ^ w) 256, Nat.mod_mul]

theorem bytesToNatLE_natToBytesLE_of_lt {w v : Nat} (h : v < 256 ^ w) :
    bytesToNatLE (natToBytesLE w v) = v := by
  rw [bytesToNatLE_natToBytesLE, Nat.mod_eq_of_lt h]

/-! ## C2: endoscaling -/

/-- C2: for every 128-bit challenge input `c`, the scalar produced by
`Challenge128::get_scalar` equals the value of the recurrence: `acc` starts at
`2 * (ZETA + 1)`; for each of the 64 bit-pairs of `c` from most- to
least-significant, `q = (-1 if the high bit of the pair is set else 1) *
(ZETA if the low bit of the pair is set else 1)` and `acc` becomes
`acc + q + acc`.  Both sides are functions of `c` alone, so the result is
bit-exact and deterministic. -/
theorem getScalar_eq_endoRecurrence {R : Type} [CommRing R] (zeta : R) (c : Nat)
    (hc : c < 2 ^ 128) : getScalar zeta c = endoRecurrence zeta c := by
  unfold getScalar endoRecurrence
  have hinit : ((zeta + 1) + (zeta + 1) : R) = 2 * (zeta + 1) := by ring
  rw [hinit]
  refine List.foldl_ext _ _ _ ?_
  intro acc i _
  unfold getScalarStep
  by_cases hn : c.testBit (2 * i + 1) <;> by_cases he : c.testBit (2 * i) <;>
    simp [hn, he] <;> ring

/-- Witness for C2 at the concrete 128-bit input `12345` with `ZETA := 5` in `ℤ`. -/
theorem getScalar_eq_endoRecurrence_witness :
    (12345 : Nat) < 2 ^ 128 ∧ getScalar (5 : ℤ) 12345 = endoRecurrence (5 : ℤ) 12345 :=
  ⟨by norm_num, getScalar_eq_endoRecurrence (5 : ℤ) 12345 (by norm_num)⟩

/-! ## C10: `Challenge255` -/

/-- Canonical round trip: decoding the canonical encoding of a field element
succeeds and returns the element, whenever the modulus fits in 32 bytes. -/
theorem fieldFromBytes_fieldToBytes (p : Nat) [NeZero p] (hp : p ≤ 256 ^ 32)
    (x : ZMod p) : fieldFromBytes p (fieldToBytes p x) = some x := by
  have hval : x.val < p := ZMod.val_lt x
  have hlt : x.val < 256 ^ 32 := lt_of_lt_of_le hval hp
  have hdec : bytesToNatLE (natToBytesLE 32 x.val) = x.val :=
    bytesToNatLE_natToBytesLE_of_lt hlt
  unfold fieldFromBytes fieldToBytes
  rw [if_pos]
  · rw [hdec, ZMod.natCast_val, ZMod.cast_id]
  · exact ⟨length_natToBytesLE 32 x.val, by rw [hdec]; exact hval⟩

/-- C10: for every 64-byte challenge input `d`, `Challenge255::new d` stores
the canonical 32-byte encoding of the wide reduction of `d`, so `get_scalar`
on any `Challenge255` produced by `new` succeeds (its internal canonical
decoding is never a failure case) and returns exactly the wide-reduced
scalar. -/
theorem challenge255_new_getScalar (p : Nat) [NeZero p] (hp : p ≤ 256 ^ 32)
    (d : List Nat) :
    (Challenge255.new p d).bytes = fieldToBytes p (fieldFromBytesWide p d) ∧
    (Challenge255.new p d).getScalar p = some (fieldFromBytesWide p d) := by
  refine ⟨rfl, ?_⟩
  unfold Challenge255.getScalar Challenge255.new
  exact fieldFromBytes_fieldToBytes p hp (fieldFromBytesWide p d)

/-- Witness for C10 at `p = 97` and the all-sevens 64-byte input. -/
theorem challenge255_new_getScalar_witness :
    (97 : Nat) ≤ 256 ^ 32 ∧
      (Challenge255.new 97 (List.replicate 64 7)).getScalar 97 =
        some (fieldFromBytesWide 97 (List.replicate 64 7)) :=
  ⟨by norm_num, (challenge255_new_getScalar 97 (by norm_num) (List.replicate 64 7)).2⟩

/-! ## C4: identity-point rejection -/

/-- C4: on both the reading and the writing transcript, `common_point p`
errors exactly when `p` is the identity point (never silently absorbing it),
and for every non-identity point it succeeds and absorbs the point's canonical
coordinate encoding (`x` then `y`) into the hash state, leaving the I/O buffer
untouched. -/
theorem commonPoint_identity_iff {F : Type} (enc : F → List Nat)
    (t : Blake2bRead F) (t' : Blake2bWrite F) (p : AffinePoint F) :
    (t.commonPoint enc p = none ↔ p.coordinates = none) ∧
    (t'.commonPoint enc p = none ↔ p.coordinates = none) ∧
    (∀ x y, p.coordinates = some (x, y) →
      t.commonPoint enc p =
        some { state := t.state ++ enc x ++ enc y, reader := t.reader } ∧
      t'.commonPoint enc p =
        some { state := t'.state ++ enc x ++ enc y, writer := t'.writer }) := by
  refine ⟨?_, ?_, ?_⟩
  · cases hp : p.coordinates with
    | none => simp [Blake2bRead.commonPoint, hp]
    | some xy => cases xy with
      | mk x y => simp [Blake2bRead.commonPoint, hp]
  · cases hp : p.coordinates with
    | none => simp [Blake2bWrite.commonPoint, hp]
    | some xy => cases xy with
      | mk x y => simp [Blake2bWrite.commonPoint, hp]
  · intro x y hp
    constructor
    · simp [Blake2bRead.commonPoint, hp]
    · simp [Blake2bWrite.commonPoint, hp]

/-! ## C5: transcript determinism and ratcheting -/

/-- The challenges produced by a run do not depend on the proof byte buffer,
only on the hash state and the operation sequence. -/
theorem runOps_writer_irrelevant {F : Type} (enc : F → List Nat)
    (H : List Nat → List Nat) (ops : List (TOp F)) (s w w' : List Nat) :
    (Blake2bWrite.runOps enc H ⟨s, w⟩ ops).map (fun r => r.2) =
      (Blake2bWrite.runOps enc H ⟨s, w'⟩ ops).map (fun r => r.2) := by
  induction ops generalizing s w w' with
  | nil => rfl
  | cons op ops ih =>
      cases op with
      | point pt =>
          cases hp : pt.coordinates with
          | none => simp [Blake2bWrite.runOps, Blake2bWrite.commonPoint, hp]
          | some xy =>
              cases xy with
              | mk x y =>
                  simpa [Blake2bWrite.runOps, Blake2bWrite.commonPoint, hp]
                    using ih (s ++ enc x ++ enc y) w w'
      | scalar sc =>
          simpa [Blake2bWrite.runOps, Blake2bWrite.commonScalar]
            using ih (s ++ enc sc) w w'
      | squeeze =>
          have := ih (s ++ H s) w w'
          simp only [Blake2bWrite.runOps, Blake2bWrite.squeezeChallenge]
          cases h1 : Blake2bWrite.runOps enc H ⟨s ++ H s, w⟩ ops with
          | none =>
              cases h2 : Blake2bWrite.runOps enc H ⟨s ++ H s, w'⟩ ops with
              | none => simp
              | some r2 => rw [h1, h2] at this; simp at this
          | some r1 =>
              cases h2 : Blake2bWrite.runOps enc H ⟨s ++ H s, w'⟩ ops with
              | none => rw [h1, h2] at this; simp at this
              | some r2 =>
                  rw [h1, h2] at this
                  simp at this
                  simp [this]

/-- C5: transcripts are deterministic and ratcheted. (i) Two writing
transcripts with identical hash states, fed an identical sequence of absorbs
and squeezes, yield bit-identical challenge digests, whatever their I/O
buffers hold (the run is a pure function of state and operations). (ii)
`squeeze_challenge` re-seeds the hash state with the finalized 64-byte digest,
so the hash input of a second consecutive squeeze (the re-seeded state)
differs from the hash input of the first (the original state): repeated
squeezes never see the same challenge input. -/
theorem transcript_deterministic_and_ratcheted {F : Type} (enc : F → List Nat)
    (H : List Nat → List Nat) (hH : ∀ s, (H s).length = 64) :
    (∀ (ops : List (TOp F)) (s w w' : List Nat),
      (Blake2bWrite.runOps enc H ⟨s, w⟩ ops).map (fun r => r.2) =
        (Blake2bWrite.runOps enc H ⟨s, w'⟩ ops).map (fun r => r.2)) ∧
    (∀ t : Blake2bWrite F, ((t.squeezeChallenge H).2).state ≠ t.state) ∧
    (∀ t : Blake2bRead F, ((t.squeezeChallenge H).2).state ≠ t.state) := by
  refine ⟨fun ops s w w' => runOps_writer_irrelevant enc H ops s w w', ?_, ?_⟩
  · intro t h
    have hlen : (t.state ++ H t.state).length = t.state.length := by
      simpa [Blake2bWrite.squeezeChallenge] using congrArg List.length h
    rw [List.length_append, hH t.state] at hlen
    omega
  · intro t h
    have hlen : (t.state ++ H t.state).length = t.state.length := by
      simpa [Blake2bRead.squeezeChallenge] using congrArg List.length h
    rw [List.length_append, hH t.state] at hlen
    omega

/-- Witness for C5: the constant all-zero 64-byte digest function satisfies
the length hypothesis, and the theorem then applies at `F := ℕ`. -/
theorem transcript_deterministic_and_ratcheted_witness :
    (∀ s : List Nat, ((fun _ : List Nat => List.replicate 64 0) s).length = 64) ∧
      ∀ t : Blake2bWrite ℕ,
        ((t.squeezeChallenge (fun _ => List.replicate 64 0)).2).state ≠ t.state :=
  ⟨fun _ => by simp,
    (transcript_deterministic_and_ratcheted (F := ℕ) (fun n => [n])
      (fun _ => List.replicate 64 0) (fun _ => by simp)).2.1⟩

/-! ## C9: point wire encoding -/

/-- C9: the proof-stream wire encoding of a non-identity curve point produced
by `write_point` is the two fixed-width canonical little-endian field-element
encodings, `x` followed by `y`; `read_point` expects exactly those bytes,
consuming them and returning the same point. -/
theorem writePoint_readPoint_wire_encoding (p : Nat) [NeZero p]
    (hp : p ≤ 256 ^ 32) (t : Blake2bWrite (ZMod p)) (t' : Blake2bRead (ZMod p))
    (point : AffinePoint (ZMod p)) (x y : ZMod p)
    (hxy : point.coordinates = some (x, y)) (rest : List Nat)
    (hreader : t'.reader = (fieldToBytes p x ++ fieldToBytes p y) ++ rest) :
    t.writePoint p point =
      some { state := t.state ++ fieldToBytes p x ++ fieldToBytes p y,
             writer := t.writer ++ (fieldToBytes p x ++ fieldToBytes p y) } ∧
    t'.readPoint p =
      some (point,
        { state := t'.state ++ fieldToBytes p x ++ fieldToBytes p y,
          reader := rest }) := by
  have hlenx : (fieldToBytes p x).length = 32 := length_natToBytesLE 32 x.val
  have hleny : (fieldToBytes p y).length = 32 := length_natToBytesLE 32 y.val
  have hlenxy : (fieldToBytes p x ++ fieldToBytes p y).length = 64 := by
    rw [List.length_append, hlenx, hleny]
  constructor
  · unfold Blake2bWrite.writePoint pointToBytes
    rw [hxy]
    simp [Blake2bWrite.commonPoint, hxy]
  · unfold Blake2bRead.readPoint
    have htake : t'.reader.take 64 = fieldToBytes p x ++ fieldToBytes p y := by
      rw [hreader, List.take_left' hlenxy]
    have hdrop : t'.reader.drop 64 = rest := by
      rw [hreader, List.drop_left' hlenxy]
    have hlen : ¬ t'.reader.length < 64 := by
      rw [hreader, List.length_append, hlenxy]
      omega
    rw [if_neg hlen, htake, hdrop]
    have hdecode : pointFromBytes p (fieldToBytes p x ++ fieldToBytes p y) =
        some point := by
      unfold pointFromBytes
      rw [if_pos hlenxy, List.take_left' hlenx, List.drop_left' hlenx,
        fieldFromBytes_fieldToBytes p hp x, fieldFromBytes_fieldToBytes p hp y]
      cases point with
      | mk c => simp at hxy; rw [hxy]
    rw [hdecode]
    simp [Blake2bRead.commonPoint, hxy, List.append_assoc]

/-- Witness for C9 at `p = 97`, the point `(3, 5)`, empty buffers. -/
theorem writePoint_readPoint_wire_encoding_witness :
    (97 : Nat) ≤ 256 ^ 32 ∧
      (AffinePoint.mk (some ((3 : ZMod 97), (5 : ZMod 97)))).coordinates =
        some (3, 5) ∧
      (Blake2bWrite.mk [] []).writePoint 97 ⟨some (3, 5)⟩ =
        some { state := [] ++ fieldToBytes 97 (3 : ZMod 97) ++ fieldToBytes 97 (5 : ZMod 97),
               writer := [] ++ (fieldToBytes 97 (3 : ZMod 97) ++ fieldToBytes 97 (5 : ZMod 97)) } :=
  ⟨by norm_num, rfl,
    (writePoint_readPoint_wire_encoding 97 (by norm_num) ⟨[], []⟩
      ⟨[], fieldToBytes 97 3 ++ fieldToBytes 97 5 ++ []⟩ ⟨some (3, 5)⟩ 3 5 rfl []
      rfl).1⟩

/-! ## C3: the speculative finalization retry loop -/

/-- C3: in the speculative finalization loop, (i) when the external
single-point opening construction fails, the loop retries with the `f_poly`
blind incremented by one and the commitment shifted by the blinding generator,
starting again from the same original transcripts (`t`, `t'` are passed
unchanged into every attempt: each iteration works on fresh clones); and (ii)
whenever the loop produces a result, it is an opening produced by a successful
attempt, after `k` failed attempts whose failures were all consumed inside the
loop — `Proof::create` never surfaces the opening-construction failure to the
caller. -/
theorem createLoop_retry {Fq Pt Op T T' : Type} [CommRing Fq]
    (attempt : T → T' → Fq → Pt → Option Op) (addH : Pt → Pt) (t : T) (t' : T') :
    (∀ (n : Nat) (fb : Fq) (fc : Pt), attempt t t' fb fc = none →
      createLoop attempt addH t t' (n + 1) fb fc =
        createLoop attempt addH t t' n (fb + 1) (addH fc)) ∧
    (∀ (n : Nat) (fb : Fq) (fc : Pt) (op : Op) (fb2 : Fq) (fc2 : Pt),
      createLoop attempt addH t t' n fb fc = some (op, fb2, fc2) →
      ∃ k : Nat, fb2 = fb + (k : Fq) ∧ fc2 = addH^[k] fc ∧
        attempt t t' fb2 fc2 = some op ∧
        ∀ j < k, attempt t t' (fb + (j : Fq)) (addH^[j] fc) = none) := by
  constructor
  · intro n fb fc h
    simp [createLoop, h]
  · intro n
    induction n with
    | zero =>
        intro fb fc op fb2 fc2 h
        simp [createLoop] at h
    | succ n ih =>
        intro fb fc op fb2 fc2 h
        cases ha : attempt t t' fb fc with
        | some o =>
            simp only [createLoop, ha] at h
            obtain ⟨h1, h2, h3⟩ := by simpa using h
            refine ⟨0, by simp [h2], by simp [h3], ?_, by omega⟩
            rw [← h2, ← h3, ha, h1]
        | none =>
            simp only [createLoop, ha] at h
            obtain ⟨k, hk1, hk2, hk3, hk4⟩ := ih (fb + 1) (addH fc) op fb2 fc2 h
            refine ⟨k + 1, ?_, ?_, hk3, ?_⟩
            · rw [hk1]; push_cast; ring
            · rw [hk2, Function.iterate_succ_apply]
            · intro j hj
              cases j with
              | zero => simpa using ha
              | succ i =>
                  have harg : fb + ((i + 1 : Nat) : Fq) = (fb + 1) + (i : Fq) := by
                    push_cast; ring
                  rw [Function.iterate_succ_apply, harg]
                  exact hk4 i (by omega)

/-- Witness for C3: with an attempt that succeeds exactly when the blind
reaches `2`, the loop at fuel `3` from blind `0` retries twice and returns the
opening with blind `2` and commitment shifted twice by the generator. -/
theorem createLoop_retry_witness :
    createLoop (fun (_ : Unit) (_ : Unit) (fb : ℤ) (_ : ℤ) =>
        if fb = 2 then some 42 else none) (fun c => c + 10) () () 3 0 0 =
      some (42, 2, 20) ∧
    ∃ k : Nat, (2 : ℤ) = 0 + (k : ℤ) ∧ (20 : ℤ) = (fun c => c + 10)^[k] (0 : ℤ) ∧
      (fun (_ : Unit) (_ : Unit) (fb : ℤ) (_ : ℤ) =>
        if fb = 2 then some 42 else none) () () 2 20 = some 42 ∧
      ∀ j < k, (fun (_ : Unit) (_ : Unit) (fb : ℤ) (_ : ℤ) =>
        if fb = 2 then some 42 else none) () () (0 + (j : ℤ))
          ((fun c => c + 10)^[j] (0 : ℤ)) = none :=
  ⟨by decide,
    (createLoop_retry (fun (_ : Unit) (_ : Unit) (fb : ℤ) (_ : ℤ) =>
        if fb = 2 then some 42 else none) (fun c => c + 10) () ()).2
      3 0 0 42 2 20 (by decide)⟩

/-! ## C7: the `x_7` fold is the Horner fold -/

/-- Folding an indexed range with defaulted indexing equals folding the list
directly. -/
theorem foldl_range_getD {α β : Type} (g : β → α → β) (d : α) (l : List α)
    (init : β) :
    (List.range l.length).foldl (fun acc i => g acc (l.getD i d)) init =
      l.foldl g init := by
  induction l generalizing init with
  | nil => rfl
  | cons a as ih =>
      rw [List.length_cons, List.range_succ_eq_map, List.foldl_cons,
        List.foldl_map]
      simp only [List.getD_cons_zero, List.getD_cons_succ]
      exact ih (g init a)

/-- C7: after deriving `x_7`, the final blind and final polynomial handed to
the single-point opening primitive equal the Horner fold with `x_7`
(`acc = acc * x_7 + next`, over point indices in order) of the per-point
aggregate blinds and polynomials, folded into the step-2 `f_blind` and
`f_poly` as initial accumulators. -/
theorem finalFold_is_horner {R : Type} [CommRing R] (x7 : R) (n : Nat)
    (qPolys : List (List R)) (qBlinds : List R) (fPoly : List R) (fBlind : R)
    (hb : qBlinds.length = n) (hq : qPolys.length = n) :
    finalFoldBlind x7 n qBlinds fBlind =
      qBlinds.foldl (fun acc b => acc * x7 + b) fBlind ∧
    finalFoldPoly x7 n qPolys fPoly =
      qPolys.foldl (fun acc q => polyMulAdd x7 acc q) fPoly := by
  constructor
  · unfold finalFoldBlind
    rw [← hb]
    exact foldl_range_getD _ 0 qBlinds fBlind
  · unfold finalFoldPoly
    rw [← hq]
    exact foldl_range_getD _ [] qPolys fPoly

/-- Witness for C7 with two points, over `ℤ`. -/
theorem finalFold_is_horner_witness :
    ([(3 : ℤ), 4].length = 2 ∧ [[(1 : ℤ), 0], [0, 1]].length = 2) ∧
      finalFoldBlind (2 : ℤ) 2 [3, 4] 7 =
        [(3 : ℤ), 4].foldl (fun acc b => acc * 2 + b) 7 ∧
      finalFoldPoly (2 : ℤ) 2 [[1, 0], [0, 1]] [5, 6] =
        [[(1 : ℤ), 0], [0, 1]].foldl (fun acc q => polyMulAdd 2 acc q) [5, 6] :=
  ⟨⟨rfl, rfl⟩,
    finalFold_is_horner (2 : ℤ) 2 [[1, 0], [0, 1]] [3, 4] [5, 6] 7 rfl rfl⟩

/-! ## Association-list and first-seen index-map lemmas -/

theorem alookup_append {κ ν : Type} [DecidableEq κ] (m1 m2 : List (κ × ν)) (k : κ) :
    alookup (m1 ++ m2) k =
      (match alookup m1 k with
       | some v => some v
       | none => alookup m2 k) := by
  induction m1 with
  | nil => simp [alookup]
  | cons e m1 ih =>
      obtain ⟨k1, v1⟩ := e
      by_cases hk : k1 = k <;> simp [alookup, hk, ih]

theorem alookup_insertIndexed_of_isSome {κ : Type} [DecidableEq κ]
    (m : List (κ × Nat)) (k k2 : κ) (h : (alookup m k2).isSome) :
    alookup (insertIndexed m k) k2 = alookup m k2 := by
  unfold insertIndexed
  cases hk : alookup m k with
  | some v => rfl
  | none =>
      rw [alookup_append]
      obtain ⟨v2, hv2⟩ := Option.isSome_iff_exists.mp h
      rw [hv2]

theorem alookup_insertIndexed_self {κ : Type} [DecidableEq κ]
    (m : List (κ × Nat)) (k : κ) : (alookup (insertIndexed m k) k).isSome := by
  unfold insertIndexed
  cases hk : alookup m k with
  | some v => rw [hk]; rfl
  | none =>
      rw [alookup_append, hk]
      simp [alookup]

theorem alookup_foldl_insertIndexed {κ : Type} [DecidableEq κ] (ks : List κ)
    (m : List (κ × Nat)) (k : κ) (h : (alookup m k).isSome) :
    alookup (ks.foldl insertIndexed m) k = alookup m k := by
  induction ks generalizing m with
  | nil => rfl
  | cons k1 ks ih =>
      rw [List.foldl_cons]
      have hpres : alookup (insertIndexed m k1) k = alookup m k :=
        alookup_insertIndexed_of_isSome m k1 k h
      rw [ih (insertIndexed m k1) (by rw [hpres]; exact h), hpres]

theorem idxOf?_isSome_iff {α : Type} [DecidableEq α] (l : List α) (a : α) :
    (idxOf? l a).isSome ↔ a ∈ l := by
  induction l with
  | nil => simp [idxOf?]
  | cons b l ih =>
      by_cases hb : b = a
      · simp [idxOf?, hb]
      · simp only [idxOf?, if_neg hb, List.mem_cons]
        have hmap : (Option.map (fun x => x + 1) (idxOf? l a)).isSome =
            (idxOf? l a).isSome := by
          cases idxOf? l a <;> rfl
        rw [hmap, ih]
        constructor
        · exact fun h => Or.inr h
        · rintro (h | h)
          · exact absurd h.symm hb
          · exact h

theorem idxOf?_inj {α : Type} [DecidableEq α] (l : List α) (a b : α) (i : Nat)
    (ha : idxOf? l a = some i) (hb : idxOf? l b = some i) : a = b := by
  induction l generalizing i with
  | nil => simp [idxOf?] at ha
  | cons c l ih =>
      by_cases hca : c = a <;> by_cases hcb : c = b
      · rw [← hca, ← hcb]
      · rw [idxOf?] at ha hb
        rw [if_pos hca, if_neg hcb] at *
        obtain ⟨j, _, hj2⟩ := Option.map_eq_some'.mp hb
        rw [← Option.some_inj.mp ha] at hj2
        omega
      · rw [idxOf?] at ha hb
        rw [if_neg hca, if_pos hcb] at *
        obtain ⟨j, _, hj2⟩ := Option.map_eq_some'.mp ha
        rw [← Option.some_inj.mp hb] at hj2
        omega
      · rw [idxOf?] at ha hb
        rw [if_neg hca] at ha
        rw [if_neg hcb] at hb
        obtain ⟨j, hj1, hj2⟩ := Option.map_eq_some'.mp ha
        obtain ⟨j2, hj21, hj22⟩ := Option.map_eq_some'.mp hb
        have : j = j2 := by omega
        exact ih j hj1 (this ▸ hj21)

theorem mem_foldl_firstSeenStep {α : Type} [DecidableEq α] (l : List α)
    (acc : List α) (a : α) :
    a ∈ l.foldl (fun acc x => if x ∈ acc then acc else acc ++ [x]) acc ↔
      a ∈ acc ∨ a ∈ l := by
  induction l generalizing acc with
  | nil => simp
  | cons x l ih =>
      rw [List.foldl_cons]
      by_cases hx : x ∈ acc
      · rw [if_pos hx, ih]
        constructor
        · rintro (h | h)
          · exact Or.inl h
          · exact Or.inr (List.mem_cons_of_mem x h)
        · rintro (h | h)
          · exact Or.inl h
          · rcases List.mem_cons.mp h with rfl | h2
            · exact Or.inl hx
            · exact Or.inr h2
      · rw [if_neg hx, ih]
        simp [List.mem_append, List.mem_cons, or_assoc]

theorem mem_firstSeen {α : Type} [DecidableEq α] (l : List α) (a : α) :
    a ∈ firstSeen l ↔ a ∈ l := by
  unfold firstSeen
  rw [mem_foldl_firstSeenStep]
  simp

theorem nodup_foldl_firstSeenStep {α : Type} [DecidableEq α] (l : List α)
    (acc : List α) (h : acc.Nodup) :
    (l.foldl (fun acc x => if x ∈ acc then acc else acc ++ [x]) acc).Nodup := by
  induction l generalizing acc with
  | nil => exact h
  | cons x l ih =>
      rw [List.foldl_cons]
      by_cases hx : x ∈ acc
      · rw [if_pos hx]; exact ih _ h
      · rw [if_neg hx]
        refine ih _ ?_
        rw [List.nodup_append]
        exact ⟨h, List.nodup_singleton x, by simpa [List.disjoint_singleton]⟩

theorem nodup_firstSeen {α : Type} [DecidableEq α] (l : List α) :
    (firstSeen l).Nodup :=
  nodup_foldl_firstSeenStep l [] List.nodup_nil

theorem length_indexedFrom {α : Type} (n : Nat) (l : List α) :
    (indexedFrom n l).length = l.length := by
  induction l generalizing n with
  | nil => rfl
  | cons a as ih => simp [indexedFrom, ih]

theorem indexedFrom_append {α : Type} (n : Nat) (l : List α) (a : α) :
    indexedFrom n (l ++ [a]) = indexedFrom n l ++ [(a, n + l.length)] := by
  induction l generalizing n with
  | nil => simp [indexedFrom]
  | cons b bs ih =>
      show (b, n) :: indexedFrom (n + 1) (bs ++ [a]) =
        ((b, n) :: indexedFrom (n + 1) bs) ++ [(a, n + (bs.length + 1))]
      rw [ih (n + 1), List.cons_append]
      have harith : n + 1 + bs.length = n + (bs.length + 1) := by omega
      rw [harith]

theorem alookup_indexedFrom {α : Type} [DecidableEq α] (n : Nat) (l : List α)
    (k : α) : alookup (indexedFrom n l) k = (idxOf? l k).map (· + n) := by
  induction l generalizing n with
  | nil => simp [indexedFrom, alookup, idxOf?]
  | cons a as ih =>
      by_cases ha : a = k
      · simp [indexedFrom, alookup, idxOf?, ha]
      · rw [indexedFrom, alookup, if_neg ha, ih (n + 1), idxOf?, if_neg ha]
        cases h : idxOf? as k with
        | none => rfl
        | some j => simp; omega

theorem foldl_insertIndexed_indexedFrom {κ : Type} [DecidableEq κ]
    (ks : List κ) (fs : List κ) :
    ks.foldl insertIndexed (indexedFrom 0 fs) =
      indexedFrom 0
        (ks.foldl (fun acc a => if a ∈ acc then acc else acc ++ [a]) fs) := by
  induction ks generalizing fs with
  | nil => rfl
  | cons k ks ih =>
      rw [List.foldl_cons, List.foldl_cons]
      by_cases hk : k ∈ fs
      · rw [if_pos hk]
        have hsome : (alookup (indexedFrom 0 fs) k).isSome := by
          rw [alookup_indexedFrom]
          simpa [idxOf?_isSome_iff] using hk
        have heq : insertIndexed (indexedFrom 0 fs) k = indexedFrom 0 fs := by
          unfold insertIndexed
          obtain ⟨v, hv⟩ := Option.isSome_iff_exists.mp hsome
          rw [hv]
        rw [heq]
        exact ih fs
      · rw [if_neg hk]
        have hnone : alookup (indexedFrom 0 fs) k = none := by
          rw [alookup_indexedFrom]
          have : idxOf? fs k = none := by
            cases h : idxOf? fs k with
            | none => rfl
            | some v =>
                exact absurd ((idxOf?_isSome_iff fs k).mp (by rw [h]; rfl)) hk
          rw [this]; rfl
        have heq : insertIndexed (indexedFrom 0 fs) k = indexedFrom 0 (fs ++ [k]) := by
          unfold insertIndexed
          rw [hnone, length_indexedFrom, indexedFrom_append]
          simp
        rw [heq]
        exact ih (fs ++ [k])

theorem buildIndexMap_eq_indexedFrom {κ : Type} [DecidableEq κ] (ks : List κ) :
    buildIndexMap ks = indexedFrom 0 (firstSeen ks) :=
  foldl_insertIndexed_indexedFrom ks []

theorem alookup_buildIndexMap {κ : Type} [DecidableEq κ] (ks : List κ) (k : κ) :
    alookup (buildIndexMap ks) k = idxOf? (firstSeen ks) k := by
  rw [buildIndexMap_eq_indexedFrom, alookup_indexedFrom]
  cases h : idxOf? (firstSeen ks) k <;> simp

/-! ## Splitting the first loop of `construct_intermediate_sets` -/

theorem processQuery_fst {F : Type} [DecidableEq F] (m : List (F × Nat))
    (pm : List (PolyRef F × CommitmentData F)) (q : ProverQuery F) :
    (processQuery (m, pm) q).1 = insertIndexed m q.point := by
  unfold processQuery
  by_cases h : pm.any (fun e => e.1.addr == q.poly.addr) <;> simp [h]

theorem foldl_processQuery_fst {F : Type} [DecidableEq F]
    (qs : List (ProverQuery F)) (m : List (F × Nat))
    (pm : List (PolyRef F × CommitmentData F)) :
    (qs.foldl processQuery (m, pm)).1 =
      (qs.map (fun q => q.point)).foldl insertIndexed m := by
  induction qs generalizing m pm with
  | nil => rfl
  | cons q qs ih =>
      rw [List.foldl_cons, List.map_cons, List.foldl_cons]
      have hsplit : processQuery (m, pm) q =
          (insertIndexed m q.point, (processQuery (m, pm) q).2) := by
        rw [← processQuery_fst m pm q]
      rw [hsplit]
      exact ih (insertIndexed m q.point) (processQuery (m, pm) q).2

theorem pointIndexMap_eq_buildIndexMap {F : Type} [DecidableEq F]
    (qs : List (ProverQuery F)) :
    pointIndexMap qs = buildIndexMap (qs.map (fun q => q.point)) :=
  foldl_processQuery_fst qs [] []

/-! ## C8: point indices in first-seen order -/

/-- C8: query aggregation assigns each distinct evaluation point a point index
in first-seen order — the position of the point in the deduplicated
first-seen-ordered list of queried points.  In the concrete scenario where `P`
is queried at `z1` then `z2` and `Q` only at `z1`, `z1` gets index 0 and `z2`
gets index 1, `P`'s group key is `{0, 1}` and `Q`'s is `{0}`, giving two
distinct groups (set indices 0 and 1). -/
theorem pointIndex_first_seen_order :
    (∀ (F : Type) [DecidableEq F] (qs : List (ProverQuery F)) (pt : F),
      alookup (pointIndexMap qs) pt =
        idxOf? (firstSeen (qs.map (fun q => q.point))) pt) ∧
    (alookup (pointIndexMap scenarioQueries) 10 = some 0 ∧
     alookup (pointIndexMap scenarioQueries) 20 = some 1 ∧
     (polyMap scenarioQueries).map (fun e => pointIndexSetOf e.2) =
       [{0, 1}, {0}] ∧
     pointIdxSets scenarioQueries = [({0, 1}, 0), ({0}, 1)]) := by
  constructor
  · intro F _ qs pt
    rw [pointIndexMap_eq_buildIndexMap, alookup_buildIndexMap]
  · refine ⟨by decide, by decide, by decide, by decide⟩

/-! ## The `poly_map` merge criterion (C1) -/

theorem any_addrEq_iff {F : Type} [DecidableEq F]
    (pm : List (PolyRef F × CommitmentData F)) (a : Nat) :
    pm.any (fun e => e.1.addr == a) = true ↔
      a ∈ pm.map (fun e => e.1.addr) := by
  rw [List.any_eq_true]
  simp only [beq_iff_eq, List.mem_map]

theorem processQuery_of_mem {F : Type} [DecidableEq F] (m : List (F × Nat))
    (pm : List (PolyRef F × CommitmentData F)) (q : ProverQuery F)
    (h : pm.any (fun e => e.1.addr == q.poly.addr) = true) :
    processQuery (m, pm) q =
      (insertIndexed m q.point, pm.map fun e =>
        if e.1.addr = q.poly.addr then
          (e.1, { e.2 with point_indices := e.2.point_indices ++
            [(alookup (insertIndexed m q.point) q.point).getD 0] })
        else e) := by
  unfold processQuery
  simp [h]

theorem processQuery_of_not_mem {F : Type} [DecidableEq F] (m : List (F × Nat))
    (pm : List (PolyRef F × CommitmentData F)) (q : ProverQuery F)
    (h : pm.any (fun e => e.1.addr == q.poly.addr) = false) :
    processQuery (m, pm) q =
      (insertIndexed m q.point,
        pm ++ [(q.poly,
          ⟨0, q.blind, [(alookup (insertIndexed m q.point) q.point).getD 0], []⟩)]) := by
  unfold processQuery
  simp [h]

theorem foldl_processQuery_map_addr {F : Type} [DecidableEq F]
    (rest : List (ProverQuery F)) :
    ∀ (m : List (F × Nat)) (pm : List (PolyRef F × CommitmentData F)),
    ((rest.foldl processQuery (m, pm)).2).map (fun e => e.1.addr) =
      (rest.map (fun q => q.poly.addr)).foldl
        (fun acc x => if x ∈ acc then acc else acc ++ [x])
        (pm.map (fun e => e.1.addr)) := by
  induction rest with
  | nil => intro m pm; rfl
  | cons q rest ih =>
      intro m pm
      rw [List.foldl_cons, List.map_cons, List.foldl_cons]
      cases hq : pm.any (fun e => e.1.addr == q.poly.addr) with
      | true =>
          have hmem : q.poly.addr ∈ pm.map (fun e => e.1.addr) :=
            (any_addrEq_iff pm q.poly.addr).mp hq
          rw [processQuery_of_mem m pm q hq, ih]
          have hmap : (pm.map fun e =>
              if e.1.addr = q.poly.addr then
                (e.1, { e.2 with point_indices := e.2.point_indices ++
                  [(alookup (insertIndexed m q.point) q.point).getD 0] })
              else e).map (fun e => e.1.addr) = pm.map (fun e => e.1.addr) := by
            rw [List.map_map]
            refine List.map_congr_left ?_
            intro e _
            by_cases h : e.1.addr = q.poly.addr <;> simp [h]
          rw [hmap, if_pos hmem]
      | false =>
          have hmem : q.poly.addr ∉ pm.map (fun e => e.1.addr) := by
            intro hc
            rw [← any_addrEq_iff pm q.poly.addr] at hc
            rw [hq] at hc
            cases hc
          rw [processQuery_of_not_mem m pm q hq, ih, List.map_append,
            if_neg hmem]
          rfl

theorem find?_addrEq_map {F : Type} [DecidableEq F]
    (pm : List (PolyRef F × CommitmentData F))
    (g : PolyRef F × CommitmentData F → PolyRef F × CommitmentData F)
    (hg : ∀ e, (g e).1 = e.1) (a : Nat) :
    (pm.map g).find? (fun e => e.1.addr == a) =
      (pm.find? (fun e => e.1.addr == a)).map g := by
  have hcomp : ((fun e : PolyRef F × CommitmentData F => e.1.addr == a) ∘ g) =
      (fun e => e.1.addr == a) := by
    funext e
    show ((g e).1.addr == a) = (e.1.addr == a)
    rw [hg e]
  rw [List.find?_map, hcomp]

/-- The `poly_map` produced by the first loop, characterized entrywise: the
first entry with a given address is the first matching existing entry extended
by the point indices of all matching queries, or a fresh entry built from the
first matching query. -/
theorem foldl_processQuery_find? {F : Type} [DecidableEq F] (a : Nat)
    (rest : List (ProverQuery F)) :
    ∀ (m mf : List (F × Nat)) (pm : List (PolyRef F × CommitmentData F)),
    mf = (rest.map (fun q => q.point)).foldl insertIndexed m →
    ((rest.foldl processQuery (m, pm)).2).find? (fun e => e.1.addr == a) =
      expectedEntry (pm.find? (fun e => e.1.addr == a))
        (rest.find? (fun q => q.poly.addr == a))
        ((rest.filter (fun q => q.poly.addr == a)).map
          (fun q => (alookup mf q.point).getD 0)) := by
  induction rest with
  | nil =>
      intro m mf pm hmf
      show pm.find? (fun e => e.1.addr == a) =
        expectedEntry (pm.find? (fun e => e.1.addr == a)) none []
      cases h : pm.find? (fun e => e.1.addr == a) with
      | none => rfl
      | some e => simp [expectedEntry]
  | cons q rest ih =>
      intro m mf pm hmf
      have hmf' : mf = (rest.map (fun q => q.point)).foldl insertIndexed
          (insertIndexed m q.point) := by
        rw [hmf, List.map_cons, List.foldl_cons]
      have hidx : (alookup mf q.point).getD 0 =
          (alookup (insertIndexed m q.point) q.point).getD 0 := by
        rw [hmf',
          alookup_foldl_insertIndexed _ _ _ (alookup_insertIndexed_self m q.point)]
      rw [List.foldl_cons]
      cases hq : pm.any (fun e => e.1.addr == q.poly.addr) with
      | true =>
          rw [processQuery_of_mem m pm q hq,
            ih (insertIndexed m q.point) mf _ hmf',
            find?_addrEq_map _ _
              (fun e => by by_cases h : e.1.addr = q.poly.addr <;> simp [h]) a]
          by_cases hqa : q.poly.addr = a
          · have hsome : (pm.find? (fun e => e.1.addr == a)).isSome := by
              rw [List.find?_isSome]
              obtain ⟨e, he, hea⟩ := List.any_eq_true.mp hq
              rw [beq_iff_eq] at hea
              exact ⟨e, he, by rw [beq_iff_eq, hea, hqa]⟩
            obtain ⟨e0, he0⟩ := Option.isSome_iff_exists.mp hsome
            have he0a : e0.1.addr = a := by
              have := List.find?_some he0
              rwa [beq_iff_eq] at this
            rw [he0, List.filter_cons_of_pos (by rw [beq_iff_eq]; exact hqa)]
            simp only [Option.map_some', expectedEntry, List.map_cons]
            rw [if_pos (he0a.trans hqa.symm)]
            rw [hidx]
            simp [List.append_assoc]
          · rw [List.find?_cons_of_neg _ (by rw [beq_iff_eq]; exact hqa),
              List.filter_cons_of_neg (by rw [beq_iff_eq]; exact hqa)]
            cases he : pm.find? (fun e => e.1.addr == a) with
            | none => rfl
            | some e0 =>
                have he0a : e0.1.addr = a := by
                  have := List.find?_some he
                  rwa [beq_iff_eq] at this
                have hge : (if e0.1.addr = q.poly.addr then
                    (e0.1, { e0.2 with point_indices := e0.2.point_indices ++
                      [(alookup (insertIndexed m q.point) q.point).getD 0] })
                  else e0) = e0 := by
                  rw [if_neg]
                  intro hc
                  exact hqa (hc ▸ he0a)
                simp only [Option.map_some', hge]
      | false =>
          rw [processQuery_of_not_mem m pm q hq,
            ih (insertIndexed m q.point) mf _ hmf',
            List.find?_append]
          by_cases hqa : q.poly.addr = a
          · have hnone : pm.find? (fun e => e.1.addr == a) = none := by
              rw [List.find?_eq_none]
              intro e he hc
              rw [beq_iff_eq] at hc
              have hany : pm.any (fun e => e.1.addr == q.poly.addr) = true :=
                List.any_eq_true.mpr ⟨e, he, by rw [beq_iff_eq, hc, hqa]⟩
              rw [hq] at hany
              cases hany
            have hfind1 : List.find? (fun e => e.1.addr == a)
                [(q.poly, (⟨0, q.blind,
                  [(alookup (insertIndexed m q.point) q.point).getD 0], []⟩ :
                    CommitmentData F))] =
                some (q.poly, ⟨0, q.blind,
                  [(alookup (insertIndexed m q.point) q.point).getD 0], []⟩) :=
              List.find?_cons_of_pos _ (by rw [beq_iff_eq]; exact hqa)
            have hfind2 : List.find? (fun x => x.poly.addr == a) (q :: rest) =
                some q :=
              List.find?_cons_of_pos _ (by rw [beq_iff_eq]; exact hqa)
            rw [hnone, Option.none_or, hfind1, hfind2,
              List.filter_cons_of_pos (by rw [beq_iff_eq]; exact hqa)]
            simp only [expectedEntry, List.map_cons]
            rw [hidx]
            simp
          · have hne : List.find? (fun e => e.1.addr == a)
                [(q.poly, (⟨0, q.blind,
                  [(alookup (insertIndexed m q.point) q.point).getD 0], []⟩ :
                    CommitmentData F))] = none := by
              rw [List.find?_eq_none]
              intro e he
              rw [List.mem_singleton] at he
              subst he
              rw [beq_iff_eq]
              exact hqa
            rw [hne, Option.or_none,
              List.find?_cons_of_neg _ (by rw [beq_iff_eq]; exact hqa),
              List.filter_cons_of_neg (by rw [beq_iff_eq]; exact hqa)]

theorem find?_of_mem_nodup_addr {F : Type} [DecidableEq F]
    (l : List (PolyRef F × CommitmentData F))
    (hnodup : (l.map (fun e => e.1.addr)).Nodup)
    (e : PolyRef F × CommitmentData F) (he : e ∈ l) :
    l.find? (fun x => x.1.addr == e.1.addr) = some e := by
  induction l with
  | nil => cases he
  | cons x l ih =>
      rcases List.mem_cons.mp he with rfl | he2
      · exact List.find?_cons_of_pos _ (by rw [beq_iff_eq])
      · have hx : ¬ (x.1.addr == e.1.addr) = true := by
          rw [beq_iff_eq]
          intro hxe
          refine (List.nodup_cons.mp hnodup).1 ?_
          show x.1.addr ∈ List.map (fun e => e.1.addr) l
          rw [hxe]
          exact List.mem_map_of_mem (fun e => e.1.addr) he2
        have hstep : List.find? (fun y => y.1.addr == e.1.addr) (x :: l) =
            List.find? (fun y => y.1.addr == e.1.addr) l :=
          List.find?_cons_of_neg _ hx
        rw [hstep]
        exact ih (List.nodup_cons.mp hnodup).2 he2

/-- C1 (amended): during query aggregation, two queries are treated as
referring to the same polynomial if and only if their polynomial references
are pointer-equal (`std::ptr::eq`, i.e. the same object address): `poly_map`
holds exactly one entry per distinct address in first-seen order, and the
entry for an address collects the point indices of precisely the queries with
that address — the coefficients of the polynomial play no role. -/
theorem polyMap_groups_by_pointer_identity {F : Type} [DecidableEq F]
    (qs : List (ProverQuery F)) :
    (polyMap qs).map (fun e => e.1.addr) =
      firstSeen (qs.map (fun q => q.poly.addr)) ∧
    ∀ e ∈ polyMap qs,
      e.2.point_indices =
        (qs.filter (fun q => q.poly.addr == e.1.addr)).map
          (fun q => (alookup (pointIndexMap qs) q.point).getD 0) := by
  have hA : (polyMap qs).map (fun e => e.1.addr) =
      firstSeen (qs.map (fun q => q.poly.addr)) :=
    foldl_processQuery_map_addr qs [] []
  refine ⟨hA, ?_⟩
  intro e he
  have hnodup : ((polyMap qs).map (fun e => e.1.addr)).Nodup := by
    rw [hA]; exact nodup_firstSeen _
  have hfind : (polyMap qs).find? (fun x => x.1.addr == e.1.addr) = some e :=
    find?_of_mem_nodup_addr _ hnodup e he
  have hchar : (polyMap qs).find? (fun x => x.1.addr == e.1.addr) =
      expectedEntry (List.find? (fun x => x.1.addr == e.1.addr) [])
        (qs.find? (fun q => q.poly.addr == e.1.addr))
        ((qs.filter (fun q => q.poly.addr == e.1.addr)).map
          (fun q => (alookup (pointIndexMap qs) q.point).getD 0)) :=
    foldl_processQuery_find? e.1.addr qs [] (pointIndexMap qs) []
      (foldl_processQuery_fst qs [] [])
  have hmem : e.1.addr ∈ qs.map (fun q => q.poly.addr) := by
    rw [← mem_firstSeen, ← hA]
    exact List.mem_map_of_mem (fun e => e.1.addr) he
  have hqs : ∃ q0 ∈ qs, (q0.poly.addr == e.1.addr) = true := by
    obtain ⟨q0, hq0, hq0a⟩ := List.mem_map.mp hmem
    exact ⟨q0, hq0, by rw [beq_iff_eq]; exact hq0a⟩
  obtain ⟨q0, hq0find⟩ :=
    Option.isSome_iff_exists.mp (List.find?_isSome.mpr hqs)
  rw [hfind, hq0find] at hchar
  simp only [List.find?_nil, expectedEntry] at hchar
  exact congrArg (fun x => x.2.point_indices) (Option.some_inj.mp hchar)

/-- C1 counterexample: two queries whose polynomials are coefficient-for-
coefficient identical (and identical in blind, point and evaluation) are
nevertheless kept as two separate `poly_map` entries when their references
have distinct addresses, while the same query repeated at one address is
merged into one entry: the aggregation decides polynomial identity by object
address, contradicting the claim that address is never used. -/
theorem polyMap_address_decides_counterexample :
    (⟨⟨0, [1, 2]⟩, 5, 7, 9⟩ : ProverQuery ℕ).poly.coeffs =
      (⟨⟨1, [1, 2]⟩, 5, 7, 9⟩ : ProverQuery ℕ).poly.coeffs ∧
    (⟨⟨0, [1, 2]⟩, 5, 7, 9⟩ : ProverQuery ℕ).blind =
      (⟨⟨1, [1, 2]⟩, 5, 7, 9⟩ : ProverQuery ℕ).blind ∧
    (⟨⟨0, [1, 2]⟩, 5, 7, 9⟩ : ProverQuery ℕ).point =
      (⟨⟨1, [1, 2]⟩, 5, 7, 9⟩ : ProverQuery ℕ).point ∧
    (⟨⟨0, [1, 2]⟩, 5, 7, 9⟩ : ProverQuery ℕ).eval =
      (⟨⟨1, [1, 2]⟩, 5, 7, 9⟩ : ProverQuery ℕ).eval ∧
    (⟨⟨0, [1, 2]⟩, 5, 7, 9⟩ : ProverQuery ℕ).poly.addr ≠
      (⟨⟨1, [1, 2]⟩, 5, 7, 9⟩ : ProverQuery ℕ).poly.addr ∧
    (polyMap [⟨⟨0, [1, 2]⟩, 5, 7, 9⟩,
      (⟨⟨1, [1, 2]⟩, 5, 7, 9⟩ : ProverQuery ℕ)]).length = 2 ∧
    (polyMap [⟨⟨0, [1, 2]⟩, 5, 7, 9⟩,
      (⟨⟨0, [1, 2]⟩, 5, 7, 9⟩ : ProverQuery ℕ)]).length = 1 := by
  decide

/-! ## C6: grouping by point-index-set equality -/

theorem polyMap_addr_nodup {F : Type} [DecidableEq F]
    (qs : List (ProverQuery F)) :
    ((polyMap qs).map (fun e => e.1.addr)).Nodup := by
  have hA : (polyMap qs).map (fun e => e.1.addr) =
      firstSeen (qs.map (fun q => q.poly.addr)) :=
    foldl_processQuery_map_addr qs [] []
  rw [hA]
  exact nodup_firstSeen _

theorem foldl_lastMatch_no_match {F : Type} (l : List (PolyRef F × Finset Nat))
    (a : Nat) (d : Finset Nat) (h : ∀ y ∈ l, y.1.addr ≠ a) :
    l.foldl (fun acc x => if x.1.addr = a then x.2 else acc) d = d := by
  induction l generalizing d with
  | nil => rfl
  | cons x l ih =>
      rw [List.foldl_cons, if_neg (h x (List.mem_cons_self x l))]
      exact ih d (fun y hy => h y (List.mem_cons_of_mem x hy))

theorem foldl_lastMatch_unique {F : Type} (l : List (PolyRef F × Finset Nat))
    (a : Nat) (hnodup : (l.map (fun e => e.1.addr)).Nodup)
    (e : PolyRef F × Finset Nat) (he : e ∈ l) (ha : e.1.addr = a) :
    ∀ d, l.foldl (fun acc x => if x.1.addr = a then x.2 else acc) d = e.2 := by
  induction l with
  | nil => cases he
  | cons x l ih =>
      intro d
      rw [List.foldl_cons]
      rcases List.mem_cons.mp he with heq | he2
      · have hax : x.1.addr = a := heq ▸ ha
        rw [if_pos hax, heq]
        refine foldl_lastMatch_no_match l a x.2 ?_
        intro y hy hya
        refine (List.nodup_cons.mp hnodup).1 ?_
        show x.1.addr ∈ List.map (fun e => e.1.addr) l
        rw [hax, ← hya]
        exact List.mem_map_of_mem _ hy
      · have hx : x.1.addr ≠ a := by
          intro hxa
          refine (List.nodup_cons.mp hnodup).1 ?_
          show x.1.addr ∈ List.map (fun e => e.1.addr) l
          rw [hxa, ← ha]
          exact List.mem_map_of_mem _ he2
        rw [if_neg hx]
        exact ih (List.nodup_cons.mp hnodup).2 he2 _

theorem lastMatchSet_eq_pointIndexSetOf {F : Type} [DecidableEq F]
    (qs : List (ProverQuery F)) (e : PolyRef F × CommitmentData F)
    (he : e ∈ polyMap qs) :
    lastMatchSet qs e.1.addr = pointIndexSetOf e.2 := by
  unfold lastMatchSet
  have hnodup : ((polySetMap qs).map (fun x => x.1.addr)).Nodup := by
    unfold polySetMap
    rw [List.map_map]
    exact polyMap_addr_nodup qs
  exact foldl_lastMatch_unique (polySetMap qs) e.1.addr hnodup
    (e.1, pointIndexSetOf e.2)
    (List.mem_map_of_mem (fun e => (e.1, pointIndexSetOf e.2)) he) rfl ∅

theorem pointIdxSets_eq_buildIndexMap {F : Type} [DecidableEq F]
    (qs : List (ProverQuery F)) :
    pointIdxSets qs =
      buildIndexMap ((polyMap qs).map (fun e => pointIndexSetOf e.2)) := by
  unfold pointIdxSets buildIndexMap
  rw [List.foldl_map]

theorem length_populateStep {F : Type} [DecidableEq F] [Zero F]
    (qs : List (ProverQuery F)) (pm : List (PolyRef F × CommitmentData F))
    (q : ProverQuery F) : (populateStep qs pm q).length = pm.length := by
  unfold populateStep
  exact List.length_map pm _

theorem length_foldl_populateStep {F : Type} [DecidableEq F] [Zero F]
    (qs ql : List (ProverQuery F)) (pm : List (PolyRef F × CommitmentData F)) :
    (ql.foldl (populateStep qs) pm).length = pm.length := by
  induction ql generalizing pm with
  | nil => rfl
  | cons q ql ih => rw [List.foldl_cons, ih, length_populateStep]

theorem foldl_populateStep_getElem {F : Type} [DecidableEq F] [Zero F]
    (qs ql : List (ProverQuery F)) :
    ∀ (pm : List (PolyRef F × CommitmentData F)) (i : Nat)
      (hi : i < pm.length)
      (hi2 : i < (ql.foldl (populateStep qs) pm).length),
    ((ql.foldl (populateStep qs) pm)[i]).1 = (pm[i]).1 ∧
    ((ql.foldl (populateStep qs) pm)[i]).2.point_indices =
      (pm[i]).2.point_indices ∧
    ((ql.foldl (populateStep qs) pm)[i]).2.set_index =
      (if (pm[i]).1.addr ∈ ql.map (fun q => q.poly.addr)
       then (alookup (pointIdxSets qs)
         (lastMatchSet qs ((pm[i]).1.addr))).getD 0
       else (pm[i]).2.set_index) := by
  induction ql with
  | nil =>
      intro pm i hi hi2
      exact ⟨rfl, rfl, by simp⟩
  | cons q ql ih =>
      intro pm i hi hi2
      rw [List.foldl_cons] at hi2
      have hi' : i < (populateStep qs pm q).length := by
        rw [length_populateStep]; exact hi
      obtain ⟨h1, h2, h3⟩ := ih (populateStep qs pm q) i hi' hi2
      have hget : (populateStep qs pm q)[i] =
          (if (pm[i]).1.addr = q.poly.addr then
            ((pm[i]).1, { (pm[i]).2 with
              set_index := (alookup (pointIdxSets qs)
                (lastMatchSet qs q.poly.addr)).getD 0,
              evals := (pm[i]).2.evals.set
                ((idxOf? ((lastMatchSet qs q.poly.addr).sort (· ≤ ·))
                  ((alookup (pointIndexMap qs) q.point).getD 0)).getD 0)
                q.eval })
          else pm[i]) := by
        unfold populateStep
        exact List.getElem_map _
      by_cases hcond : (pm[i]).1.addr = q.poly.addr
      · rw [if_pos hcond] at hget
        rw [hget] at h1 h2 h3
        dsimp only at h1 h2 h3
        refine ⟨?_, ?_, ?_⟩
        · exact h1
        · exact h2
        · show ((List.foldl (populateStep qs) (populateStep qs pm q) ql)[i]).2.set_index =
            (if (pm[i]).1.addr ∈ (q :: ql).map (fun q => q.poly.addr)
             then (alookup (pointIdxSets qs)
               (lastMatchSet qs ((pm[i]).1.addr))).getD 0
             else (pm[i]).2.set_index)
          rw [List.map_cons,
            if_pos (show (pm[i]).1.addr ∈ q.poly.addr ::
              ql.map (fun q => q.poly.addr) by
                rw [hcond]; exact List.mem_cons_self _ _)]
          by_cases hmem : (pm[i]).1.addr ∈ ql.map (fun q => q.poly.addr)
          · rw [if_pos hmem] at h3
            exact h3
          · rw [if_neg hmem] at h3
            rw [h3, hcond]
      · rw [if_neg hcond] at hget
        rw [hget] at h1 h2 h3
        refine ⟨h1, h2, ?_⟩
        show ((List.foldl (populateStep qs) (populateStep qs pm q) ql)[i]).2.set_index =
          (if (pm[i]).1.addr ∈ (q :: ql).map (fun q => q.poly.addr)
           then (alookup (pointIdxSets qs)
             (lastMatchSet qs ((pm[i]).1.addr))).getD 0
           else (pm[i]).2.set_index)
        rw [List.map_cons]
        by_cases hmem : (pm[i]).1.addr ∈ ql.map (fun q => q.poly.addr)
        · rw [if_pos hmem] at h3
          rw [if_pos (List.mem_cons_of_mem _ hmem)]
          exact h3
        · rw [if_neg hmem] at h3
          rw [if_neg ?_]
          · exact h3
          · intro hc
            rcases List.mem_cons.mp hc with hc1 | hc2
            · exact hcond hc1
            · exact hmem hc2

theorem length_populate {F : Type} [DecidableEq F] [Zero F]
    (qs : List (ProverQuery F)) :
    (populate qs).length = (polyMap qs).length := by
  unfold populate
  rw [length_foldl_populateStep, List.length_map]

theorem populate_getElem {F : Type} [DecidableEq F] [Zero F]
    (qs : List (ProverQuery F)) (i : Nat)
    (hi : i < (populate qs).length) (hip : i < (polyMap qs).length) :
    ((populate qs)[i]).1 = ((polyMap qs)[i]).1 ∧
    ((populate qs)[i]).2.point_indices = ((polyMap qs)[i]).2.point_indices ∧
    ((populate qs)[i]).2.set_index =
      (alookup (pointIdxSets qs)
        (pointIndexSetOf ((polyMap qs)[i]).2)).getD 0 := by
  have hpm0 : i < ((polyMap qs).map fun e =>
      (e.1, { e.2 with
        evals := List.replicate e.2.point_indices.length 0 })).length := by
    rw [List.length_map]; exact hip
  have hifold : i < (List.foldl (populateStep qs)
      ((polyMap qs).map fun e =>
        (e.1, { e.2 with
          evals := List.replicate e.2.point_indices.length 0 })) qs).length := hi
  have hfold := foldl_populateStep_getElem qs qs
    ((polyMap qs).map fun e =>
      (e.1, { e.2 with
        evals := List.replicate e.2.point_indices.length 0 }))
    i hpm0 hifold
  obtain ⟨h1, h2, h3⟩ := hfold
  have hget0 : ((polyMap qs).map (fun e =>
      (e.1, { e.2 with
        evals := List.replicate e.2.point_indices.length 0 })))[i] =
      (((polyMap qs)[i]).1, { ((polyMap qs)[i]).2 with
        evals :=
          List.replicate ((polyMap qs)[i]).2.point_indices.length 0 }) :=
    List.getElem_map _
  rw [hget0] at h1 h2 h3
  dsimp only at h1 h2 h3
  have hmem : ((polyMap qs)[i]).1.addr ∈ qs.map (fun q => q.poly.addr) := by
    have hmap : (polyMap qs).map (fun e => e.1.addr) =
        firstSeen (qs.map (fun q => q.poly.addr)) :=
      foldl_processQuery_map_addr qs [] []
    have hmm : ((polyMap qs)[i]).1.addr ∈
        (polyMap qs).map (fun e => e.1.addr) :=
      List.mem_map_of_mem (fun e => e.1.addr) (List.getElem_mem hip)
    rw [hmap] at hmm
    exact (mem_firstSeen _ _).mp hmm
  rw [if_pos hmem] at h3
  rw [lastMatchSet_eq_pointIndexSetOf qs ((polyMap qs)[i])
    (List.getElem_mem hip)] at h3
  exact ⟨h1, h2, h3⟩

/-- C6: the grouping key of query aggregation is set equality of point-index
sets — two entries of the populated `poly_map` are assigned the same group
(set index) if and only if their point-index sets are equal, regardless of
the insertion order of the points; in particular a polynomial queried at
`{z1, z2}` and one queried at `{z2, z1}` share a group while one queried only
at `{z1}` gets a distinct group. -/
theorem setIndex_same_iff_same_point_set {F : Type} [DecidableEq F] [Zero F]
    (qs : List (ProverQuery F)) (i j : Nat)
    (hi : i < (populate qs).length) (hj : j < (populate qs).length) :
    ((populate qs)[i]).2.set_index = ((populate qs)[j]).2.set_index ↔
      pointIndexSetOf ((populate qs)[i]).2 =
        pointIndexSetOf ((populate qs)[j]).2 := by
  have hip : i < (polyMap qs).length := by rw [← length_populate]; exact hi
  have hjp : j < (polyMap qs).length := by rw [← length_populate]; exact hj
  obtain ⟨hi1, hi2, hi3⟩ := populate_getElem qs i hi hip
  obtain ⟨hj1, hj2, hj3⟩ := populate_getElem qs j hj hjp
  have hsi : pointIndexSetOf ((populate qs)[i]).2 =
      pointIndexSetOf ((polyMap qs)[i]).2 := by
    unfold pointIndexSetOf
    rw [hi2]
  have hsj : pointIndexSetOf ((populate qs)[j]).2 =
      pointIndexSetOf ((polyMap qs)[j]).2 := by
    unfold pointIndexSetOf
    rw [hj2]
  rw [hi3, hj3, hsi, hsj]
  have hmemI : pointIndexSetOf ((polyMap qs)[i]).2 ∈
      (polyMap qs).map (fun e => pointIndexSetOf e.2) :=
    List.mem_map_of_mem (fun e => pointIndexSetOf e.2) (List.getElem_mem hip)
  have hmemJ : pointIndexSetOf ((polyMap qs)[j]).2 ∈
      (polyMap qs).map (fun e => pointIndexSetOf e.2) :=
    List.mem_map_of_mem (fun e => pointIndexSetOf e.2) (List.getElem_mem hjp)
  rw [pointIdxSets_eq_buildIndexMap, alookup_buildIndexMap,
    alookup_buildIndexMap]
  have hIs : (idxOf? (firstSeen ((polyMap qs).map (fun e => pointIndexSetOf e.2)))
      (pointIndexSetOf ((polyMap qs)[i]).2)).isSome :=
    (idxOf?_isSome_iff _ _).mpr ((mem_firstSeen _ _).mpr hmemI)
  have hJs : (idxOf? (firstSeen ((polyMap qs).map (fun e => pointIndexSetOf e.2)))
      (pointIndexSetOf ((polyMap qs)[j]).2)).isSome :=
    (idxOf?_isSome_iff _ _).mpr ((mem_firstSeen _ _).mpr hmemJ)
  obtain ⟨vI, hvI⟩ := Option.isSome_iff_exists.mp hIs
  obtain ⟨vJ, hvJ⟩ := Option.isSome_iff_exists.mp hJs
  rw [hvI, hvJ]
  simp only [Option.getD_some]
  constructor
  · intro hv
    subst hv
    exact idxOf?_inj _ _ _ vI hvI hvJ
  · intro hs
    rw [hs] at hvI
    rw [hvI] at hvJ
    exact Option.some_inj.mp hvJ

/-- Witness for C6 on the permuted scenario: `P` queried at `z1` then `z2`
and `R` queried at `z2` then `z1` (entries 0 and 2 of `poly_map`) share a set
index, obtained from the theorem by set equality of their point-index sets. -/
theorem setIndex_same_iff_same_point_set_witness :
    (0 < (populate scenarioQueriesPerm).length ∧
      1 < (populate scenarioQueriesPerm).length) ∧
    ((populate scenarioQueriesPerm).get ⟨0, by decide⟩).2.set_index =
      ((populate scenarioQueriesPerm).get ⟨1, by decide⟩).2.set_index :=
  ⟨⟨by decide, by decide⟩,
    (setIndex_same_iff_same_point_set scenarioQueriesPerm 0 1 (by decide)
      (by decide)).mpr (by decide)⟩

end Halo2
